import Mathlib

/-!
Verification of the noxopt repository's auto-tagging engine and option
resolution layer, as a shallow embedding in Lean 4.

The repository contains three variants of the auto-tagging engine:
`AutoTag.add_func` in `noxopt/_tagging.py`, `_AutoTag.add_func` in
`noxopt/noxopt.py`, and `_AutoTag.add_func` in `noxopt/__init__.py`.
The `_TagNode` class is textually identical in all three files; the
`add_func` walk differs between `_tagging.py` and the other two files
(whose bodies are textually identical to each other).

Session handles (`Func` objects) are identified by natural numbers.  The
in-place mutation `func.tags.append(tag)` is modelled by an emission list
of `(handle, tag)` pairs produced in program order; a handle's tag list is
the sequence of emissions targeting it (each handle starts with no tags).
Python's `None`-or-empty ("falsy") tag of the root node is modelled by the
empty string, which is exactly how `_TagNode.add_tag` and
`_TagNode.add_node` treat it (`if self.tag:` / `if self.tag else word`).
The separator is modelled as a single character, matching the engine's
default `"-"` (the spec calls the separator a character); `str.split` for
a one-character separator is embedded as `splitCh` below.
-/

set_option maxHeartbeats 1000000

namespace Noxopt

/-- Python `name.split(sep)` for a one-character separator `sep`:
splits at every occurrence of `sep`; adjacent separators and separators at
either end produce empty segments, and splitting the empty string gives
`[""]`. -/
def splitCh (sep : Char) : List Char → List String
  | [] => [""]
  | d :: rest =>
    let r := splitCh sep rest
    if d = sep then "" :: r
    else String.mk (d :: r.headI.data) :: r.tail

/-- `_TagNode` from `noxopt/_tagging.py` (identical in `noxopt.py` and
`__init__.py`): a trie node with a tag, a list of funcs registered at the
node, and insertion-ordered children keyed by the next name segment. -/
inductive TagNode : Type where
  | mk (tag : String) (funcs : List Nat) (children : List (String × TagNode))

/-- The `tag` attribute of a node. -/
def nodeTag : TagNode → String
  | .mk t _ _ => t

/-- The `funcs` attribute of a node. -/
def nodeFuncs : TagNode → List Nat
  | .mk _ fs _ => fs

/-- The `children` attribute of a node, as an insertion-ordered
association list (Python dicts preserve insertion order). -/
def nodeChildren : TagNode → List (String × TagNode)
  | .mk _ _ cs => cs

/-- Python `word in node.children` / `node.children[word]`. -/
def lookupChild : List (String × TagNode) → String → Option TagNode
  | [], _ => Option.none
  | (k, c) :: rest, w => if k = w then some c else lookupChild rest w

/-- Assigning to an existing key of a Python dict keeps its position in
insertion order; used for the in-place child update during the walk. -/
def updChild : List (String × TagNode) → String → TagNode → List (String × TagNode)
  | [], _, _ => []
  | (k, c) :: rest, w, c' => if k = w then (k, c') :: rest else (k, c) :: updChild rest w c'

/-- Tag of a newly created child node: `f"{self.tag}{sep}{word}" if
self.tag else word` in `_TagNode.add_node`. -/
def childTag (tag : String) (sep : Char) (word : String) : String :=
  if tag = "" then word else tag ++ String.mk [sep] ++ word

/-- `_TagNode.add_tag`: appends the node's tag to the func's tag list;
`if self.tag:` guards against the falsy root tag. -/
def emitTag (tag : String) (fid : Nat) : List (Nat × String) :=
  if tag = "" then [] else [(fid, tag)]

mutual

/-- The funcs encountered by the worklist of
`_TagNode.retroactively_add_tags`, in visit order.  Python pops from the
end of `to_visit` and extends it with `children.values()`, which makes
the traversal exactly this depth-first walk that handles the children of
each node from last to first. -/
def visitFuncs : TagNode → List Nat
  | .mk _ fs cs => fs ++ visitFuncsRL cs

def visitFuncsRL : List (String × TagNode) → List Nat
  | [] => []
  | (_, c) :: rest => visitFuncsRL rest ++ visitFuncs c

end

/-- `_TagNode.retroactively_add_tags`: applies `self.add_tag` to every
func in the subtree, in worklist order. -/
def retroEmits (node : TagNode) : List (Nat × String) :=
  if nodeTag node = "" then []
  else (visitFuncs node).map (fun g => (g, nodeTag node))

/-- `AutoTag.add_func` from `noxopt/_tagging.py`, one step per word of
`name.split(sep)`; returns the updated node and the emissions (tag
appends) made, in program order.  The empty-word-list case is the final
`node.add_func(func)`. -/
def addFuncA (sep : Char) (fid : Nat) : List String → TagNode → TagNode × List (Nat × String)
  | [], .mk tag fs cs => (.mk tag (fs ++ [fid]) cs, [])
  | w :: rest, .mk tag fs cs =>
    let e1 := if 1 < cs.length then emitTag tag fid else []
    match lookupChild cs w with
    | some child =>
      let r := addFuncA sep fid rest child
      (.mk tag fs (updChild cs w r.1), e1 ++ r.2)
    | Option.none =>
      let e2 := if cs.length = 1 then emitTag tag fid ++ retroEmits (.mk tag fs cs) else []
      let r := addFuncA sep fid rest (.mk (childTag tag sep w) [] [])
      (.mk tag fs (cs ++ [(w, r.1)]), e1 ++ e2 ++ r.2)

/-- `_AutoTag.add_func` from `noxopt/noxopt.py`: the `len(children) > 1`
check sits inside the `word in node.children` branch, so a word that
creates a new child of an already-branching node is not tagged. -/
def addFuncB (sep : Char) (fid : Nat) : List String → TagNode → TagNode × List (Nat × String)
  | [], .mk tag fs cs => (.mk tag (fs ++ [fid]) cs, [])
  | w :: rest, .mk tag fs cs =>
    match lookupChild cs w with
    | some child =>
      let e1 := if 1 < cs.length then emitTag tag fid else []
      let r := addFuncB sep fid rest child
      (.mk tag fs (updChild cs w r.1), e1 ++ r.2)
    | Option.none =>
      let e2 := if cs.length = 1 then emitTag tag fid ++ retroEmits (.mk tag fs cs) else []
      let r := addFuncB sep fid rest (.mk (childTag tag sep w) [] [])
      (.mk tag fs (cs ++ [(w, r.1)]), e2 ++ r.2)

/-- `_AutoTag.add_func` from `noxopt/__init__.py`; its body is textually
identical to the one in `noxopt/noxopt.py`. -/
def addFuncC (sep : Char) (fid : Nat) : List String → TagNode → TagNode × List (Nat × String)
  | [], .mk tag fs cs => (.mk tag (fs ++ [fid]) cs, [])
  | w :: rest, .mk tag fs cs =>
    match lookupChild cs w with
    | some child =>
      let e1 := if 1 < cs.length then emitTag tag fid else []
      let r := addFuncC sep fid rest child
      (.mk tag fs (updChild cs w r.1), e1 ++ r.2)
    | Option.none =>
      let e2 := if cs.length = 1 then emitTag tag fid ++ retroEmits (.mk tag fs cs) else []
      let r := addFuncC sep fid rest (.mk (childTag tag sep w) [] [])
      (.mk tag fs (cs ++ [(w, r.1)]), e2 ++ r.2)

/-- A fresh engine's tag tree: `_TagNode()` with `tag=None` (falsy, hence
the empty string), no funcs, no children. -/
def emptyNode : TagNode := .mk "" [] []

/-- One full `AutoTag.add_func(name, func)` call of the `_tagging.py`
engine: split the name on the separator and walk from the given root. -/
def addNameA (sep : Char) (fid : Nat) (name : String) (node : TagNode) :
    TagNode × List (Nat × String) :=
  addFuncA sep fid (splitCh sep name.data) node

/-- One full `_AutoTag.add_func(name, func)` call of the `noxopt.py`
engine. -/
def addNameB (sep : Char) (fid : Nat) (name : String) (node : TagNode) :
    TagNode × List (Nat × String) :=
  addFuncB sep fid (splitCh sep name.data) node

/-- One full `_AutoTag.add_func(name, func)` call of the `__init__.py`
engine. -/
def addNameC (sep : Char) (fid : Nat) (name : String) (node : TagNode) :
    TagNode × List (Nat × String) :=
  addFuncC sep fid (splitCh sep name.data) node

/-- Run a fresh `_tagging.py` engine over a list of `(name, handle)`
pairs in order, collecting all emissions. -/
def runA (sep : Char) : List (String × Nat) → TagNode → TagNode × List (Nat × String)
  | [], node => (node, [])
  | (nm, f) :: rest, node =>
    let r := addNameA sep f nm node
    let r2 := runA sep rest r.1
    (r2.1, r.2 ++ r2.2)

/-- Run a fresh `noxopt.py` engine over a list of `(name, handle)` pairs. -/
def runB (sep : Char) : List (String × Nat) → TagNode → TagNode × List (Nat × String)
  | [], node => (node, [])
  | (nm, f) :: rest, node =>
    let r := addNameB sep f nm node
    let r2 := runB sep rest r.1
    (r2.1, r.2 ++ r2.2)

/-- Run a fresh `__init__.py` engine over a list of `(name, handle)` pairs. -/
def runC (sep : Char) : List (String × Nat) → TagNode → TagNode × List (Nat × String)
  | [], node => (node, [])
  | (nm, f) :: rest, node =>
    let r := addNameC sep f nm node
    let r2 := runC sep rest r.1
    (r2.1, r.2 ++ r2.2)

/-- Final `func.tags` list of handle `fid` after running the
`_tagging.py` engine (separator `sep`) on `pairs` from a fresh tree. -/
def tagsA (sep : Char) (pairs : List (String × Nat)) (fid : Nat) : List String :=
  ((runA sep pairs emptyNode).2.filter (fun e => e.1 == fid)).map (fun e => e.2)

/-- Final `func.tags` list of handle `fid` for the `noxopt.py` engine. -/
def tagsB (sep : Char) (pairs : List (String × Nat)) (fid : Nat) : List String :=
  ((runB sep pairs emptyNode).2.filter (fun e => e.1 == fid)).map (fun e => e.2)

/-- Final `func.tags` list of handle `fid` for the `__init__.py` engine. -/
def tagsC (sep : Char) (pairs : List (String × Nat)) (fid : Nat) : List String :=
  ((runC sep pairs emptyNode).2.filter (fun e => e.1 == fid)).map (fun e => e.2)

/-- The six-name example from the spec and the module docstrings. -/
def examplePairs : List (String × Nat) :=
  [("a-x-1", 1), ("a-x-2", 2), ("a-y-1", 3), ("a-y-2", 4), ("b-x-1", 5), ("b-x-2", 6)]

/-- `runA` with names pre-split into segment lists. -/
def runSegs (sep : Char) : List (List String × Nat) → TagNode → TagNode × List (Nat × String)
  | [], node => (node, [])
  | (ws, f) :: rest, node =>
    let r := addFuncA sep f ws node
    let r2 := runSegs sep rest r.1
    (r2.1, r.2 ++ r2.2)

/-- `a` is a (not necessarily proper) segment-list prefix of `b`. -/
def segPre (a b : List String) : Prop := ∃ c, a ++ c = b

/-- Boolean test for `segPre`. -/
def segPreB : List String → List String → Bool
  | [], _ => true
  | _ :: _, [] => false
  | a :: as, b :: bs => a == b && segPreB as bs

/-- The tag carried by the trie node at segment path `p`: successive
`childTag` applications starting from the root's falsy tag. -/
def tagString (sep : Char) (p : List String) : String :=
  p.foldl (fun acc w => childTag acc sep w) ""

/-- Segment `w` extends path `r` within the name multiset `T`: some name
of `T` has `r ++ [w]` as a prefix.  The trie of `T` has an edge labelled
`w` out of node `r` exactly in this case. -/
def exts (T : List (List String × Nat)) (r : List String) (w : String) : Prop :=
  ∃ q ∈ T, segPre (r ++ [w]) q.1

/-- Node `r` is a branch point of the trie of `T`: at least two distinct
segments extend it. -/
def isBranch (T : List (List String × Nat)) (r : List String) : Prop :=
  ∃ w w', w ≠ w' ∧ exts T r w ∧ exts T r w'

/-- `Reps sep T p node`: `node` is exactly the subtree at path `p` of the
trie built by the `_tagging.py` engine from the pairs `T` (in any order):
its tag is the path's tag string, its funcs are the handles of the pairs
whose name is exactly `p` in arrival order, and it has one child per
extending segment, each itself representing its path. -/
inductive Reps (sep : Char) (T : List (List String × Nat)) :
    List String → TagNode → Prop where
  | mk (p : List String) (fs : List Nat) (cs : List (String × TagNode))
      (hfs : fs = (T.filter (fun q => q.1 == p)).map (fun q => q.2))
      (hnd : (cs.map Prod.fst).Nodup)
      (hkeys : ∀ w, (∃ c, (w, c) ∈ cs) ↔ ∃ q ∈ T, segPre (p ++ [w]) q.1)
      (hch : ∀ w c, (w, c) ∈ cs → Reps sep T (p ++ [w]) c) :
      Reps sep T p (.mk (tagString sep p) fs cs)

/-- The emissions of one `add_func` call of `(n, f)` against the trie of
`T`, walking below path `p` with the remaining segments `rest`
(`n = p ++ rest`): handle `g` receives tag `t` at the depth-`k`
ancestor `r` either because `g` is the incoming handle itself and `r` is
a branch point once `n` is included, or retroactively because the call
turns `r` into a branch point for the first time and `g`'s name lies
below `r`. -/
def insSpecAt (sep : Char) (T : List (List String × Nat)) (n : List String) (f : Nat)
    (p rest : List String) (g : Nat) (t : String) : Prop :=
  ∃ k, k < rest.length ∧ t = tagString sep (p ++ rest.take k) ∧ t ≠ "" ∧
    ((g = f ∧ isBranch (T ++ [(n, f)]) (p ++ rest.take k)) ∨
     (¬ isBranch T (p ++ rest.take k) ∧ isBranch (T ++ [(n, f)]) (p ++ rest.take k) ∧
      ∃ q ∈ T, segPre (p ++ rest.take k) q.1 ∧ q.2 = g))

/-- `insSpecAt` for a full `add_func(n, f)` call from the root. -/
def insSpec (sep : Char) (T : List (List String × Nat)) (n : List String) (f : Nat)
    (g : Nat) (t : String) : Prop :=
  insSpecAt sep T n f [] n g t

/-- The emissions of running the engine over `S`, the trie of `done`
having already been built. -/
def runEmitSpec (sep : Char) : List (List String × Nat) → List (List String × Nat) →
    Nat → String → Prop
  | _, [], _, _ => False
  | done, (n, f) :: rest, g, t =>
    insSpec sep done n f g t ∨ runEmitSpec sep (done ++ [(n, f)]) rest g t

/-- The order-free description of the final tags: handle `g` of a pair of
`S` holds tag `t` exactly when `t` is the tag string of a proper
non-root prefix of its name that is a branch point of the trie of `S`. -/
def hasTagSpec (sep : Char) (S : List (List String × Nat)) (g : Nat) (t : String) : Prop :=
  ∃ q ∈ S, q.2 = g ∧ ∃ r, segPre r q.1 ∧ r ≠ q.1 ∧ t = tagString sep r ∧ t ≠ "" ∧
    isBranch S r

end Noxopt

namespace Noxopt

/-- The `noxopt.py` and `__init__.py` walks are the same function. -/
theorem addFuncB_eq_addFuncC (sep : Char) (fid : Nat) :
    ∀ (ws : List String) (n : TagNode), addFuncB sep fid ws n = addFuncC sep fid ws n := by
  intro ws
  induction ws with
  | nil => intro n; cases n; rfl
  | cons w rest ih =>
    intro n
    cases n with
    | mk t fs cs =>
      simp only [addFuncB, addFuncC]
      cases lookupChild cs w <;> simp [ih]

/-- The `noxopt.py` and `__init__.py` engines produce identical states
and emissions on every input. -/
theorem runB_eq_runC (sep : Char) :
    ∀ (pairs : List (String × Nat)) (n : TagNode), runB sep pairs n = runC sep pairs n := by
  intro pairs
  induction pairs with
  | nil => intro n; rfl
  | cons p rest ih =>
    intro n
    obtain ⟨nm, f⟩ := p
    simp only [runB, runC, addNameB, addNameC, addFuncB_eq_addFuncC, ih]

end Noxopt

namespace Noxopt

/-! ## Option resolution (`noxopt/_option.py`) and flag registration

`Option` is a dataclass whose fields default to the `UNDEFINED` identity
sentinel.  `UNDEFINED` is modelled by `Option.none` for fields holding
strings/lists/types, and by `PyVal.undef` for the `default`/`const`
fields that hold arbitrary Python values.  Python's `dataclasses.replace`
re-runs `__post_init__`, which re-validates the flags; this is `replCheck`
below. -/

/-- Python values that can appear as a parameter default. `undef` is the
`UNDEFINED` sentinel object (which, being a plain object, is truthy). -/
inductive PyVal : Type where
  | undef
  | pynone
  | bool (b : Bool)
  | int (n : Int)
  | str (s : String)
deriving DecidableEq

/-- Python truthiness of a value. -/
def PyVal.truthy : PyVal → Bool
  | .undef => true
  | .pynone => false
  | .bool b => b
  | .int n => n != 0
  | .str s => s != ""

/-- The first argument of an annotation: a Python type or other object.
`nonCallable` stands for annotation objects that `callable()` rejects
(e.g. parametrized typing constructs). -/
inductive PyTy : Type where
  | bool
  | int
  | float
  | str
  | callableObj (name : String)
  | nonCallable (name : String)
deriving DecidableEq

/-- Python `callable(opt_type)`. -/
def PyTy.isCallable : PyTy → Bool
  | .nonCallable _ => false
  | _ => true

/-- The normalized `Option` dataclass of `_option.py` (same field list in
`noxopt.py` and `__init__.py`): `Option.none` / `PyVal.undef` model the
`UNDEFINED` field sentinel.  `flags` is stored post-`__post_init__`, i.e.
already wrapped into a tuple. -/
structure OptionR where
  flags : Option (List String)
  action : Option String
  choices : Option (List PyVal)
  const : PyVal
  default : PyVal
  dest : Option String
  help : Option String
  metavar : Option String
  nargs : Option String
  required : Option Bool
  type : Option PyTy
deriving DecidableEq

/-- `Option()`: every field `UNDEFINED`. -/
def emptyOption : OptionR :=
  ⟨Option.none, Option.none, Option.none, .undef, .undef, Option.none,
   Option.none, Option.none, Option.none, Option.none, Option.none⟩

/-- Declaration-time errors.  `conflictValueError` is the `ValueError` of
`_add_option_to_parser`, whose message names both the new and the
existing `Option` definition. -/
inductive PyErr : Type where
  | typeError (msg : String)
  | valueError (msg : String)
  | conflictValueError (newOpt existing : OptionR)
deriving DecidableEq

/-- Python `f.startswith("-")` (false on the empty string). -/
def startsDash (s : String) : Bool :=
  match s.data with
  | [] => false
  | c :: _ => c == '-'

/-- The flag loop of `Option.__post_init__`: raise `ValueError` at the
first flag that does not start with a dash. -/
def checkFlags (l : List String) : Except PyErr (List String) :=
  match l.find? (fun f => !startsDash f) with
  | some f => .error (.valueError ("Option only supports flags, but got " ++ f))
  | Option.none => .ok l

/-- The `flags` argument as passed to the `Option` constructor: absent, a
single string (wrapped into a tuple by `__post_init__`), or a sequence. -/
inductive FlagsIn : Type where
  | undef
  | one (s : String)
  | many (l : List String)
deriving DecidableEq

/-- `Option.__post_init__` acting on the `flags` field. -/
def postInitFlags : FlagsIn → Except PyErr (Option (List String))
  | .undef => .ok Option.none
  | .one s => (checkFlags [s]).map some
  | .many l => (checkFlags l).map some

/-- Constructor arguments of `Option(...)`; every field defaults to
`UNDEFINED`. -/
structure OptionArgs where
  flags : FlagsIn := .undef
  action : Option String := Option.none
  choices : Option (List PyVal) := Option.none
  const : PyVal := .undef
  default : PyVal := .undef
  dest : Option String := Option.none
  help : Option String := Option.none
  metavar : Option String := Option.none
  nargs : Option String := Option.none
  required : Option Bool := Option.none
  type : Option PyTy := Option.none

/-- Constructing an `Option(...)`: store the fields, then run
`__post_init__`. -/
def mkOption (a : OptionArgs) : Except PyErr OptionR := do
  let fl ← postInitFlags a.flags
  .ok ⟨fl, a.action, a.choices, a.const, a.default, a.dest, a.help,
       a.metavar, a.nargs, a.required, a.type⟩

/-- `dataclasses.replace` constructs a new `Option`, re-running
`__post_init__` on the (already tuple-shaped) flags. -/
def replCheck (o : OptionR) : Except PyErr OptionR :=
  match o.flags with
  | Option.none => .ok o
  | some l => (checkFlags l).map (fun _ => o)

/-- Metadata attached to an `Annotated[...]` type: an `Option` instance
or some other object (rejected by the `isinstance` check). -/
inductive AnnMeta : Type where
  | isOpt (o : OptionR)
  | notOpt (desc : String)
deriving DecidableEq

/-- A parameter annotation: either a bare type or
`Annotated[type, meta, *extra]`. -/
inductive Ann : Type where
  | bare (t : PyTy)
  | annotated (t : PyTy) (m : AnnMeta) (extra : List AnnMeta)
deriving DecidableEq

/-- Python `name.replace("_", "-")` (single-character pattern). -/
def replUnderscore (s : String) : String :=
  String.mk (s.data.map (fun c => if c = '_' then '-' else c))

/-- Lines 86-92 of `_option.py`: `if opt.type is UNDEFINED:` — the bare
type must be callable and is recorded as the option's type via
`replace(opt, type=opt_type)`. -/
def fillType (name : String) (optType : PyTy) (opt : OptionR) : Except PyErr OptionR :=
  if opt.type = Option.none then
    if !optType.isCallable then
      Except.error (.typeError ("Annotation for parameter " ++ name ++ " is not callable."))
    else replCheck { opt with type := some optType }
  else Except.ok opt

/-- Lines 94-104 of `_option.py`: a bool-typed option becomes a
zero-argument flag — `action="store_false" if default is True else
"store_true"` (an identity test against `True`), clearing `type` and
`default`; otherwise a present default is recorded, else the option is
marked required. -/
def applyDefault (default : PyVal) (opt : OptionR) : Except PyErr OptionR :=
  if opt.type = some PyTy.bool then
    replCheck { opt with
      action := some (if default = PyVal.bool true then "store_false" else "store_true"),
      type := Option.none, default := PyVal.undef }
  else if default ≠ PyVal.undef then replCheck { opt with default := default }
  else replCheck { opt with required := some true }

/-- Lines 106-107 of `_option.py`: synthesize
`--<name-with-underscores-replaced-by-dashes>` when no flags were given
(the string is wrapped and validated by `__post_init__` via `replace`). -/
def fillFlags (name : String) (opt : OptionR) : Except PyErr OptionR :=
  if opt.flags = Option.none then do
    let fl ← postInitFlags (.one ("--" ++ replUnderscore name))
    Except.ok { opt with flags := fl }
  else Except.ok opt

/-- `_create_option` from `noxopt/_option.py`, taking the parameter
name, its default and its annotation `anno`: unpack the annotation — a
bare one behaves like the pair of the bare type and `Option()` — then
validate the metadata and run the three stages above in source order. -/
def createOption (name : String) (default : PyVal) (anno : Ann) :
    Except PyErr OptionR := do
  let (optType, meta0, extra) :=
    match anno with
    | .bare t => (t, AnnMeta.isOpt emptyOption, ([] : List AnnMeta))
    | .annotated t m ex => (t, m, ex)
  let opt ← match meta0 with
    | .notOpt d => Except.error (.valueError (d ++ " metadata must be an Option"))
    | .isOpt o => Except.ok o
  if extra ≠ [] then
    Except.error (.valueError "annotation has extra metadata")
  else do
    let opt ← fillType name optType opt
    let opt ← applyDefault default opt
    fillFlags name opt

/-- The per-group registration state: the `_options_by_flags` dict (in
insertion order) and the sequence of options added to the shared
`ArgumentParser`. -/
structure GroupState where
  optionsByFlags : List (String × OptionR)
  parserAdds : List OptionR
deriving DecidableEq

/-- `self._options_by_flags.get(flag)`. -/
def lookupFlag : List (String × OptionR) → String → Option OptionR
  | [], _ => Option.none
  | (k, o) :: rest, f => if k = f then some o else lookupFlag rest f

/-- The `for flag in option.flags` loop of `_add_option_to_parser`:
register unknown flags, raise on a structurally different existing
option, or record that the option already exists. -/
def addFlagsLoop (opt : OptionR) : List String → List (String × OptionR) → Bool →
    Except PyErr (List (String × OptionR) × Bool)
  | [], reg, already => .ok (reg, already)
  | f :: rest, reg, already =>
    match lookupFlag reg f with
    | Option.none => addFlagsLoop opt rest (reg ++ [(f, opt)]) already
    | some existing =>
      if existing ≠ opt then .error (.conflictValueError opt existing)
      else addFlagsLoop opt rest reg true

/-- `NoxOpt._add_option_to_parser` (identical in `noxopt.py` and
`__init__.py`): run the flag loop, then add the option to the parser
unless some flag already mapped to an identical option. -/
def addOptionToParser (st : GroupState) (opt : OptionR) : Except PyErr GroupState :=
  match opt.flags with
  | Option.none => .error (.typeError "UNDEFINED is not iterable")
  | some fl => do
    let ra ← addFlagsLoop opt fl st.optionsByFlags false
    .ok ⟨ra.1, if ra.2 then st.parserAdds else st.parserAdds ++ [opt]⟩

instance instDecEqExcept {e a : Type} [DecidableEq e] [DecidableEq a] :
    DecidableEq (Except e a) := fun x y =>
  match x, y with
  | .ok v, .ok w =>
    if h : v = w then .isTrue (by rw [h]) else .isFalse (fun hh => h (by injection hh))
  | .error v, .error w =>
    if h : v = w then .isTrue (by rw [h]) else .isFalse (fun hh => h (by injection hh))
  | .ok _, .error _ => .isFalse (fun hh => by injection hh)
  | .error _, .ok _ => .isFalse (fun hh => by injection hh)

/-- Did the computation raise a `TypeError`? -/
def isTypeErr : Except PyErr OptionR → Bool
  | .error (.typeError _) => true
  | _ => false

/-- Did the computation raise a plain `ValueError`? -/
def isValueErr : Except PyErr OptionR → Bool
  | .error (.valueError _) => true
  | _ => false

/-- Did the computation succeed? -/
def isOkOpt : Except PyErr OptionR → Bool
  | .ok _ => true
  | _ => false

end Noxopt

namespace Noxopt

/-- C1: Feeding the names `a-x-1, a-x-2, a-y-1, a-y-2, b-x-1, b-x-2` (in
that order, with handles 1..6 whose tag collections start empty) into a
fresh `_tagging.py` `AutoTag` engine with separator `-` leaves exactly the
final tag sets {a, a-x}, {a, a-x}, {a, a-y}, {a, a-y}, {b-x}, {b-x}; in
particular neither `b-x-1` nor `b-x-2` receives the tag `b`. -/
theorem autoTag_example_final_tag_sets :
    (tagsA '-' examplePairs 1).toFinset = {"a", "a-x"} ∧
    (tagsA '-' examplePairs 2).toFinset = {"a", "a-x"} ∧
    (tagsA '-' examplePairs 3).toFinset = {"a", "a-y"} ∧
    (tagsA '-' examplePairs 4).toFinset = {"a", "a-y"} ∧
    (tagsA '-' examplePairs 5).toFinset = {"b-x"} ∧
    (tagsA '-' examplePairs 6).toFinset = {"b-x"} ∧
    "b" ∉ tagsA '-' examplePairs 5 ∧ "b" ∉ tagsA '-' examplePairs 6 := by
  decide

/-- C2: After `add_func("a-x-1", h1)` and `add_func("a-x-2", h2)` on a
fresh `_tagging.py` engine neither handle carries the tag `a`; the
subsequent `add_func("a-y-1", h3)` retroactively adds `a` to both h1 and
h2, and to h3 itself. -/
theorem autoTag_retroactive_a :
    "a" ∉ tagsA '-' [("a-x-1", 1), ("a-x-2", 2)] 1 ∧
    "a" ∉ tagsA '-' [("a-x-1", 1), ("a-x-2", 2)] 2 ∧
    "a" ∈ tagsA '-' [("a-x-1", 1), ("a-x-2", 2), ("a-y-1", 3)] 1 ∧
    "a" ∈ tagsA '-' [("a-x-1", 1), ("a-x-2", 2), ("a-y-1", 3)] 2 ∧
    "a" ∈ tagsA '-' [("a-x-1", 1), ("a-x-2", 2), ("a-y-1", 3)] 3 := by
  decide

/-- C3 counterexample: the distinct names `a`, `a-x`, `a-y` fed to fresh
`_tagging.py` engines in two different orders give the handle of `a`
different final tag sets: adding `a` first yields the tag `a` for it,
adding `a` last yields no tags, so the final tag sets are not a function
of the set of names alone. -/
theorem autoTag_order_dependent_cex :
    List.Perm [("a-x", 2), ("a-y", 3), ("a", 1)] [("a", 1), ("a-x", 2), ("a-y", 3)] ∧
    "a" ∈ tagsA '-' [("a", 1), ("a-x", 2), ("a-y", 3)] 1 ∧
    "a" ∉ tagsA '-' [("a-x", 2), ("a-y", 3), ("a", 1)] 1 := by
  decide

/-- C7 counterexample: on the input `a-x-1, a-y-1, a-z-1` (handles 1, 2,
3) the `_tagging.py` engine gives handle 3 the tag `a`, while the
`noxopt.py` and `__init__.py` engines give handle 3 no tags, so the three
variants are not all equivalent. -/
theorem autoTag_variant_divergence_cex :
    tagsA '-' [("a-x-1", 1), ("a-y-1", 2), ("a-z-1", 3)] 3 = ["a"] ∧
    tagsB '-' [("a-x-1", 1), ("a-y-1", 2), ("a-z-1", 3)] 3 = [] ∧
    tagsC '-' [("a-x-1", 1), ("a-y-1", 2), ("a-z-1", 3)] 3 = [] := by
  decide

/-- C7 amended: of the three `add_func` variants, the ones in
`noxopt.py` and `__init__.py` are equivalent — for every separator,
every sequence of `(name, handle)` pairs and every handle they produce
identical final tag lists — while `_tagging.py` differs (see the
counterexample). -/
theorem autoTag_variants_B_C_equivalent (sep : Char)
    (pairs : List (String × Nat)) (fid : Nat) :
    tagsB sep pairs fid = tagsC sep pairs fid := by
  simp only [tagsB, tagsC, runB_eq_runC]

/-- Re-running `__post_init__` via `replace` either succeeds or raises a
plain `ValueError`, never a `TypeError`. -/
theorem isTypeErr_replCheck (o : OptionR) : isTypeErr (replCheck o) = false := by
  unfold replCheck
  rcases o.flags with _ | l
  · rfl
  · unfold checkFlags
    rcases h : l.find? (fun f => !startsDash f) with _ | f <;>
      simp [h, Except.map, isTypeErr]

theorem isTypeErr_bind (e : Except PyErr OptionR) (f : OptionR → Except PyErr OptionR)
    (he : isTypeErr e = false) (hf : ∀ o, e = Except.ok o → isTypeErr (f o) = false) :
    isTypeErr (e >>= f) = false := by
  cases e with
  | error err => simpa [Bind.bind, Except.bind] using he
  | ok o => simpa [Bind.bind, Except.bind] using hf o rfl

theorem startsDash_dashdash (s : String) : startsDash ("--" ++ s) = true := by
  unfold startsDash
  rw [String.data_append]
  rfl

theorem postInitFlags_dashdash (s : String) :
    postInitFlags (.one ("--" ++ s)) = .ok (some ["--" ++ s]) := by
  unfold postInitFlags checkFlags
  simp [List.find?_cons, startsDash_dashdash, Except.map]

theorem isTypeErr_applyDefault (default : PyVal) (opt : OptionR) :
    isTypeErr (applyDefault default opt) = false := by
  unfold applyDefault
  split
  · exact isTypeErr_replCheck _
  · split
    · exact isTypeErr_replCheck _
    · exact isTypeErr_replCheck _

theorem isTypeErr_fillFlags (name : String) (opt : OptionR) :
    isTypeErr (fillFlags name opt) = false := by
  unfold fillFlags
  split
  · simp [postInitFlags_dashdash, Bind.bind, Except.bind, isTypeErr]
  · rfl

/-- C9: If a parameter's annotation carries no explicit option type and
the bare annotated type is not callable, `_create_option` raises a
`TypeError` (both for a bare annotation and for `Annotated` metadata that
leaves the type undefined); if the metadata explicitly supplies the type,
no `TypeError` is raised regardless of the bare type. -/
theorem annotation_callable_requirement (name : String) (default : PyVal)
    (t t' : PyTy) (o0 o1 : OptionR)
    (hc : t.isCallable = false) (h0 : o0.type = Option.none)
    (h1 : o1.type ≠ Option.none) :
    isTypeErr (createOption name default (Ann.bare t)) = true ∧
    isTypeErr (createOption name default (Ann.annotated t (.isOpt o0) [])) = true ∧
    isTypeErr (createOption name default (Ann.annotated t' (.isOpt o1) [])) = false := by
  refine ⟨?_, ?_, ?_⟩
  · simp [createOption, fillType, hc, emptyOption, Bind.bind, Except.bind, isTypeErr]
  · simp [createOption, fillType, hc, h0, Bind.bind, Except.bind, isTypeErr]
  · have hfill : isTypeErr (fillType name t' o1) = false := by
      unfold fillType
      rw [if_neg h1]
      rfl
    show isTypeErr (do
        let opt ← fillType name t' o1
        let opt2 ← applyDefault default opt
        fillFlags name opt2) = false
    refine isTypeErr_bind _ _ hfill ?_
    intro o _
    exact isTypeErr_bind _ _ (isTypeErr_applyDefault _ _)
      (fun o2 _ => isTypeErr_fillFlags _ _)

/-- Witness for C9 at a concrete non-callable annotation. -/
theorem annotation_callable_requirement_witness :
    isTypeErr (createOption "x" PyVal.undef (Ann.bare (PyTy.nonCallable "T"))) = true ∧
    isTypeErr (createOption "x" PyVal.undef
      (Ann.annotated (PyTy.nonCallable "T") (.isOpt emptyOption) [])) = true ∧
    isTypeErr (createOption "x" PyVal.undef
      (Ann.annotated (PyTy.nonCallable "T")
        (.isOpt { emptyOption with type := some PyTy.int }) [])) = false :=
  annotation_callable_requirement "x" PyVal.undef (PyTy.nonCallable "T")
    (PyTy.nonCallable "T") emptyOption { emptyOption with type := some PyTy.int }
    rfl rfl (by decide)

/-- C8: Constructing an `Option` with a flag string that does not start
with a dash raises a `ValueError`; if all flag strings start with a dash,
construction succeeds. -/
theorem option_flag_dash_cases (a b : OptionArgs) (l m : List String)
    (ha : a.flags = .many l) (hbad : ∃ f ∈ l, startsDash f = false)
    (hb : b.flags = .many m) (hgood : ∀ f ∈ m, startsDash f = true) :
    isValueErr (mkOption a) = true ∧ isOkOpt (mkOption b) = true := by
  constructor
  · have hs : (l.find? (fun f => !startsDash f)).isSome := by
      rw [List.find?_isSome]
      obtain ⟨f, hf, hfd⟩ := hbad
      exact ⟨f, hf, by simp [hfd]⟩
    obtain ⟨g, hg⟩ := Option.isSome_iff_exists.mp hs
    simp [mkOption, postInitFlags, ha, checkFlags, hg, Except.map,
      Bind.bind, Except.bind, isValueErr]
  · have hn : m.find? (fun f => !startsDash f) = Option.none := by
      rw [List.find?_eq_none]
      intro x hx
      simp [hgood x hx]
    simp [mkOption, postInitFlags, hb, checkFlags, hn, Except.map,
      Bind.bind, Except.bind, isOkOpt]

/-- Witness for C8: `Option("x")` fails, `Option("-v", "--verbose")`
succeeds. -/
theorem option_flag_dash_cases_witness :
    isValueErr (mkOption { flags := FlagsIn.many ["x"] }) = true ∧
    isOkOpt (mkOption { flags := FlagsIn.many ["-v", "--verbose"] }) = true :=
  option_flag_dash_cases { flags := FlagsIn.many ["x"] }
    { flags := FlagsIn.many ["-v", "--verbose"] } ["x"] ["-v", "--verbose"]
    rfl ⟨"x", by decide, by decide⟩ rfl (by decide)

/-- C4 counterexample: a bool-typed parameter whose default is the truthy
value `1` (not the literal `True`) resolves to a `store_true` flag, not
the `store_false` flag the claim requires for truthy defaults
(`_create_option` tests `default is True`, not truthiness). -/
theorem boolOption_truthy_default_cex :
    PyVal.truthy (PyVal.int 1) = true ∧
    createOption "x" (PyVal.int 1) (Ann.bare PyTy.bool) =
      .ok ⟨some ["--x"], some "store_true", Option.none, .undef, .undef, Option.none,
           Option.none, Option.none, Option.none, Option.none, Option.none⟩ ∧
    some "store_true" ≠ some "store_false" := by
  decide

/-- C4 amended: a bool-typed parameter resolves to a zero-argument flag
whose `type` and `default` fields are cleared; the action is
`store_false` exactly when the default is the Python literal `True`, and
`store_true` otherwise (absent, falsy, or truthy-but-not-`True`
defaults). -/
theorem boolOption_resolution (name : String) (default : PyVal) :
    createOption name default (Ann.bare PyTy.bool) =
      .ok ⟨some ["--" ++ replUnderscore name],
           some (if default = PyVal.bool true then "store_false" else "store_true"),
           Option.none, .undef, .undef, Option.none, Option.none, Option.none,
           Option.none, Option.none, Option.none⟩ := by
  rcases default with _ | _ | b | n | s
  · rfl
  · rfl
  · cases b <;> rfl
  · rfl
  · rfl

theorem lookupFlag_append (r1 r2 : List (String × OptionR)) (f : String) :
    lookupFlag (r1 ++ r2) f =
      match lookupFlag r1 f with
      | some o => some o
      | Option.none => lookupFlag r2 f := by
  induction r1 with
  | nil => rfl
  | cons p rest ih =>
    obtain ⟨k, o⟩ := p
    by_cases h : k = f <;> simp [lookupFlag, h, ih]

theorem addFlagsLoop_conflict (opt : OptionR) :
    ∀ (fl : List String) (reg : List (String × OptionR)) (already : Bool),
    (∃ f ∈ fl, lookupFlag reg f ≠ Option.none ∧ lookupFlag reg f ≠ some opt) →
    ∃ ex, addFlagsLoop opt fl reg already = .error (.conflictValueError opt ex) ∧ ex ≠ opt := by
  intro fl
  induction fl with
  | nil =>
    intro reg already h
    obtain ⟨f, hf, _⟩ := h
    exact absurd hf (List.not_mem_nil f)
  | cons f rest ih =>
    intro reg already h
    rcases hlf : lookupFlag reg f with _ | ex
    · obtain ⟨g, hg, hgn, hgo⟩ := h
      rcases List.mem_cons.mp hg with rfl | hgrest
      · exact absurd hlf hgn
      · simp only [addFlagsLoop, hlf]
        apply ih
        obtain ⟨exg, hexg⟩ := Option.ne_none_iff_exists'.mp hgn
        have hga : lookupFlag (reg ++ [(f, opt)]) g = some exg := by
          rw [lookupFlag_append, hexg]
        refine ⟨g, hgrest, by rw [hga]; exact Option.some_ne_none exg, ?_⟩
        rw [hga]
        intro hcontra
        rw [hexg] at hgo
        exact hgo hcontra
    · by_cases hex : ex = opt
      · rw [hex] at hlf
        obtain ⟨g, hg, hgn, hgo⟩ := h
        have hrest : g ∈ rest := by
          rcases List.mem_cons.mp hg with rfl | hgrest
          · exact absurd hlf hgo
          · exact hgrest
        have step : addFlagsLoop opt (f :: rest) reg already =
            addFlagsLoop opt rest reg true := by
          simp [addFlagsLoop, hlf]
        rw [step]
        exact ih reg true ⟨g, hrest, hgn, hgo⟩
      · exact ⟨ex, by simp [addFlagsLoop, hlf, hex], hex⟩

theorem addFlagsLoop_ok (opt : OptionR) :
    ∀ (fl : List String) (reg : List (String × OptionR)) (already : Bool),
    (∀ f ∈ fl, lookupFlag reg f = Option.none ∨ lookupFlag reg f = some opt) →
    ∃ reg' already', addFlagsLoop opt fl reg already = .ok (reg', already') ∧
      (already = true → already' = true) ∧
      ((∃ f ∈ fl, lookupFlag reg f = some opt) → already' = true) := by
  intro fl
  induction fl with
  | nil =>
    intro reg already h
    exact ⟨reg, already, rfl, id, fun ⟨f, hf, _⟩ => absurd hf (List.not_mem_nil f)⟩
  | cons f rest ih =>
    intro reg already h
    rcases hlf : lookupFlag reg f with _ | ex
    · have hrest : ∀ g ∈ rest, lookupFlag (reg ++ [(f, opt)]) g = Option.none ∨
          lookupFlag (reg ++ [(f, opt)]) g = some opt := by
        intro g hg
        rcases h g (List.mem_cons_of_mem f hg) with hn | ho
        · rw [lookupFlag_append, hn]
          by_cases hfg : f = g
          · right; simp [lookupFlag, hfg]
          · left; simp [lookupFlag, hfg]
        · right; rw [lookupFlag_append, ho]
      obtain ⟨reg', already', heq, hmono, hpres⟩ := ih (reg ++ [(f, opt)]) already hrest
      refine ⟨reg', already', by simp [addFlagsLoop, hlf, heq], hmono, ?_⟩
      rintro ⟨g, hg, hgo⟩
      rcases List.mem_cons.mp hg with rfl | hgrest
      · rw [hlf] at hgo; cases hgo
      · exact hpres ⟨g, hgrest, by rw [lookupFlag_append, hgo]⟩
    · have hexo : ex = opt := by
        rcases h f (List.mem_cons_self f rest) with hn | ho
        · rw [hlf] at hn; cases hn
        · rw [hlf] at ho; exact Option.some.inj ho
      rw [hexo] at hlf
      have hrest : ∀ g ∈ rest, lookupFlag reg g = Option.none ∨
          lookupFlag reg g = some opt :=
        fun g hg => h g (List.mem_cons_of_mem f hg)
      obtain ⟨reg', already', heq, hmono, _⟩ := ih reg true hrest
      refine ⟨reg', already', ?_, fun _ => hmono rfl, fun _ => hmono rfl⟩
      simp [addFlagsLoop, hlf, heq]

/-- C5: Registering an option one of whose flags is already mapped to a
structurally different option raises the conflict `ValueError` naming
both definitions; if every already-present flag maps to a structurally
identical option, registration succeeds, and when at least one flag was
already present the option is not added to the parser again. -/
theorem optionRegistration_conflict_or_dedup
    (st1 : GroupState) (opt1 : OptionR) (l1 : List String)
    (h1 : opt1.flags = some l1)
    (hconf : ∃ f ∈ l1, lookupFlag st1.optionsByFlags f ≠ Option.none ∧
             lookupFlag st1.optionsByFlags f ≠ some opt1)
    (st2 : GroupState) (opt2 : OptionR) (l2 : List String)
    (h2 : opt2.flags = some l2)
    (hok : ∀ f ∈ l2, lookupFlag st2.optionsByFlags f = Option.none ∨
           lookupFlag st2.optionsByFlags f = some opt2) :
    (∃ ex, addOptionToParser st1 opt1 = .error (.conflictValueError opt1 ex) ∧ ex ≠ opt1) ∧
    (∃ st', addOptionToParser st2 opt2 = .ok st' ∧
       ((∃ f ∈ l2, lookupFlag st2.optionsByFlags f = some opt2) →
         st'.parserAdds = st2.parserAdds)) := by
  constructor
  · obtain ⟨ex, heq, hne⟩ := addFlagsLoop_conflict opt1 l1 st1.optionsByFlags false hconf
    exact ⟨ex, by simp [addOptionToParser, h1, heq, Bind.bind, Except.bind], hne⟩
  · obtain ⟨reg', already', heq, _, hpres⟩ := addFlagsLoop_ok opt2 l2 st2.optionsByFlags false hok
    refine ⟨⟨reg', if already' then st2.parserAdds else st2.parserAdds ++ [opt2]⟩, ?_, ?_⟩
    · simp [addOptionToParser, h2, heq, Bind.bind, Except.bind]
    · intro hp
      simp [hpres hp]

theorem runA_append (sep : Char) (l1 l2 : List (String × Nat)) (node : TagNode) :
    runA sep (l1 ++ l2) node =
      ((runA sep l2 (runA sep l1 node).1).1,
       (runA sep l1 node).2 ++ (runA sep l2 (runA sep l1 node).1).2) := by
  induction l1 generalizing node with
  | nil => simp [runA]
  | cons p rest ih =>
    obtain ⟨nm, f⟩ := p
    simp [runA, ih]

/-- C10: The engine only ever appends to a handle's tag collection: every
tag present on a handle after some calls is still present after any
further calls (the claim's single next call included). -/
theorem autoTag_tags_monotone (sep : Char) (pairs more : List (String × Nat))
    (fid : Nat) (t : String) (h : t ∈ tagsA sep pairs fid) :
    t ∈ tagsA sep (pairs ++ more) fid := by
  unfold tagsA at *
  rw [runA_append]
  simp only [List.filter_append, List.map_append, List.mem_append]
  exact Or.inl h

/-- Witness for C10: the tag `a-x` held by handle 1 before the
`a-y-1` call survives it. -/
theorem autoTag_tags_monotone_witness :
    "a-x" ∈ tagsA '-' [("a-x-1", 1), ("a-x-2", 2)] 1 ∧
    "a-x" ∈ tagsA '-' ([("a-x-1", 1), ("a-x-2", 2)] ++ [("a-y-1", 3)]) 1 :=
  ⟨by decide, autoTag_tags_monotone '-' [("a-x-1", 1), ("a-x-2", 2)] [("a-y-1", 3)]
    1 "a-x" (by decide)⟩

theorem splitCh_ne_nil (sep : Char) (l : List Char) : splitCh sep l ≠ [] := by
  cases l with
  | nil => simp [splitCh]
  | cons d rest =>
    simp only [splitCh]
    split <;> simp

theorem lookupChild_append (r1 r2 : List (String × TagNode)) (f : String) :
    lookupChild (r1 ++ r2) f =
      match lookupChild r1 f with
      | some o => some o
      | Option.none => lookupChild r2 f := by
  induction r1 with
  | nil => rfl
  | cons p rest ih =>
    obtain ⟨k, o⟩ := p
    by_cases h : k = f <;> simp [lookupChild, h, ih]

/-- A walk down a fresh (childless) node never emits: every node it
visits on the way down has no children. -/
theorem addFuncA_no_children_emits (sep : Char) (fid : Nat) :
    ∀ (ws : List String) (tag : String),
    (addFuncA sep fid ws (.mk tag [] [])).2 = [] := by
  intro ws
  induction ws with
  | nil => intro tag; rfl
  | cons w rest ih =>
    intro tag
    simp [addFuncA, lookupChild, ih]

/-- Adding a name whose first segment is not yet a child of the root
emits nothing (the root's tag is falsy, and the rest of the walk runs
through fresh nodes) and appends one child to the root. -/
theorem addFuncA_root_fresh (sep : Char) (fid : Nat) (w : String) (rest : List String)
    (rfs : List Nat) (cs : List (String × TagNode))
    (hw : lookupChild cs w = Option.none) :
    (addFuncA sep fid (w :: rest) (.mk "" rfs cs)).2 = [] ∧
    ∃ c, (addFuncA sep fid (w :: rest) (.mk "" rfs cs)).1 = .mk "" rfs (cs ++ [(w, c)]) := by
  simp only [addFuncA, hw]
  constructor
  · simp [emitTag, retroEmits, nodeTag, addFuncA_no_children_emits]
  · exact ⟨_, rfl⟩

/-- Running names with pairwise distinct, root-fresh first segments from
a root-shaped node emits nothing. -/
theorem runA_distinct_heads (sep : Char) :
    ∀ (pairs : List (String × Nat)) (rfs : List Nat) (cs : List (String × TagNode)),
    List.Pairwise
      (fun p q => (splitCh sep p.1.data).headI ≠ (splitCh sep q.1.data).headI) pairs →
    (∀ p ∈ pairs, lookupChild cs ((splitCh sep p.1.data).headI) = Option.none) →
    (runA sep pairs (.mk "" rfs cs)).2 = [] := by
  intro pairs
  induction pairs with
  | nil => intro rfs cs _ _; rfl
  | cons p rest ih =>
    intro rfs cs hpw hfresh
    obtain ⟨nm, f⟩ := p
    obtain ⟨w, tl, hws⟩ := List.exists_cons_of_ne_nil (splitCh_ne_nil sep nm.data)
    have hhead : (splitCh sep nm.data).headI = w := by rw [hws]; rfl
    have hw : lookupChild cs w = Option.none := by
      have := hfresh (nm, f) (List.mem_cons_self _ _)
      rwa [hhead] at this
    obtain ⟨hemi, c, hnode⟩ := addFuncA_root_fresh sep f w tl rfs cs hw
    have hstep : addNameA sep f nm (.mk "" rfs cs) =
        (TagNode.mk "" rfs (cs ++ [(w, c)]), []) := by
      unfold addNameA
      rw [hws]
      exact Prod.ext hnode hemi
    have hfresh' : ∀ q ∈ rest,
        lookupChild (cs ++ [(w, c)]) ((splitCh sep q.1.data).headI) = Option.none := by
      intro q hq
      have hne : (splitCh sep nm.data).headI ≠ (splitCh sep q.1.data).headI :=
        (List.pairwise_cons.mp hpw).1 q hq
      have hwq : ¬ w = (splitCh sep q.1.data).headI :=
        fun hcontra => hne (by rw [hhead, hcontra])
      rw [lookupChild_append, hfresh q (List.mem_cons_of_mem _ hq)]
      simp [lookupChild, hwq]
    simp only [runA, hstep]
    simp [ih rfs (cs ++ [(w, c)]) hpw.of_cons hfresh']

/-- C6: If no two of the names share a leading segment, a fresh
`_tagging.py` engine assigns no tags at all: the root node, despite
gaining one child per name, never produces a tag, and all deeper nodes
keep a single child. -/
theorem autoTag_distinct_leading_segments_no_tags (sep : Char)
    (pairs : List (String × Nat))
    (h : List.Pairwise
      (fun p q => (splitCh sep p.1.data).headI ≠ (splitCh sep q.1.data).headI) pairs)
    (fid : Nat) :
    tagsA sep pairs fid = [] := by
  unfold tagsA emptyNode
  rw [runA_distinct_heads sep pairs [] [] h (fun p _ => rfl)]
  rfl

/-- Witness for C6 on the names `a-x-1`, `b-x-1`, `c` (leading segments
`a`, `b`, `c`). -/
theorem autoTag_distinct_leading_segments_no_tags_witness :
    List.Pairwise
      (fun p q => (splitCh '-' p.1.data).headI ≠ (splitCh '-' q.1.data).headI)
      [("a-x-1", 1), ("b-x-1", 2), ("c", 3)] ∧
    tagsA '-' [("a-x-1", 1), ("b-x-1", 2), ("c", 3)] 1 = [] :=
  ⟨by decide, autoTag_distinct_leading_segments_no_tags '-'
    [("a-x-1", 1), ("b-x-1", 2), ("c", 3)] (by decide) 1⟩

/-- A concrete option used by the C5 witness. -/
def optInt : OptionR := { emptyOption with flags := some ["-x"], type := some PyTy.int }

/-- A second, structurally different option sharing the flag `-x`. -/
def optStr : OptionR := { emptyOption with flags := some ["-x"], type := some PyTy.str }

/-- Witness for C5: registering `optInt` over an existing different
`optStr` under the same flag conflicts; over an identical `optInt` it
deduplicates. -/
theorem optionRegistration_conflict_or_dedup_witness :
    (∃ ex, addOptionToParser ⟨[("-x", optStr)], []⟩ optInt =
       .error (.conflictValueError optInt ex) ∧ ex ≠ optInt) ∧
    (∃ st', addOptionToParser ⟨[("-x", optInt)], []⟩ optInt = .ok st' ∧
       ((∃ f ∈ ["-x"], lookupFlag (GroupState.optionsByFlags ⟨[("-x", optInt)], []⟩) f = some optInt) →
         st'.parserAdds = GroupState.parserAdds ⟨[("-x", optInt)], []⟩)) :=
  optionRegistration_conflict_or_dedup ⟨[("-x", optStr)], []⟩ optInt ["-x"] rfl
    (by decide) ⟨[("-x", optInt)], []⟩ optInt ["-x"] rfl (by decide)

theorem segPreB_iff : ∀ (a b : List String), segPreB a b = true ↔ segPre a b := by
  intro a
  induction a with
  | nil =>
    intro b
    simp only [segPreB, segPre, true_iff]
    exact ⟨b, rfl⟩
  | cons x as ih =>
    intro b
    cases b with
    | nil =>
      simp only [segPreB, segPre]
      constructor
      · intro h
        exact absurd h (by simp)
      · rintro ⟨c, hc⟩
        cases hc
    | cons y bs =>
      simp only [segPreB, Bool.and_eq_true, beq_iff_eq, ih, segPre]
      constructor
      · rintro ⟨rfl, c, rfl⟩
        exact ⟨c, rfl⟩
      · rintro ⟨c, h⟩
        injection h with h1 h2
        exact ⟨h1, c, h2⟩

instance decSegPre (a b : List String) : Decidable (segPre a b) :=
  decidable_of_iff (segPreB a b = true) (segPreB_iff a b)

theorem segPre_rfl (a : List String) : segPre a a := ⟨[], by simp⟩

theorem segPre_length {a b : List String} (h : segPre a b) : a.length ≤ b.length := by
  obtain ⟨c, rfl⟩ := h
  simp

theorem segPre_of_snoc {p : List String} {w : String} {q : List String}
    (h : segPre (p ++ [w]) q) : segPre p q := by
  obtain ⟨c, rfl⟩ := h
  exact ⟨[w] ++ c, by simp⟩

theorem not_segPre_snoc_self (p : List String) (w : String) : ¬ segPre (p ++ [w]) p := by
  intro h
  have := segPre_length h
  simp at this

theorem segPre_snoc_head {p : List String} {w w' : String} {rest : List String}
    (h : segPre (p ++ [w]) (p ++ w' :: rest)) : w = w' := by
  obtain ⟨c, hc⟩ := h
  rw [List.append_assoc] at hc
  have h2 : [w] ++ c = w' :: rest := List.append_cancel_left hc
  simpa using congrArg List.headI h2

theorem segPre_snoc_of_head (p : List String) (w : String) (rest : List String) :
    segPre (p ++ [w]) (p ++ w :: rest) := ⟨rest, by simp⟩

theorem segPre_take {r n : List String} (h : segPre r n) : n.take r.length = r := by
  obtain ⟨c, rfl⟩ := h
  exact List.take_left r c

theorem segPre_proper_snoc {p q : List String} (h : segPre p q) (hne : p ≠ q) :
    ∃ w, segPre (p ++ [w]) q := by
  obtain ⟨c, rfl⟩ := h
  cases c with
  | nil => exact absurd (by simp) hne
  | cons w c' => exact ⟨w, c', by simp⟩

theorem tagString_snoc (sep : Char) (p : List String) (w : String) :
    tagString sep (p ++ [w]) = childTag (tagString sep p) sep w := by
  simp [tagString, List.foldl_append]

theorem lookupChild_eq_none_iff (cs : List (String × TagNode)) (w : String) :
    lookupChild cs w = Option.none ↔ ∀ c, (w, c) ∉ cs := by
  induction cs with
  | nil => simp [lookupChild]
  | cons p rest ih =>
    obtain ⟨k, v⟩ := p
    by_cases h : k = w
    · subst h
      simp only [lookupChild, if_pos rfl]
      constructor
      · intro h
        cases h
      · intro hall
        exact absurd (List.mem_cons_self _ _) (hall v)
    · simp only [lookupChild, if_neg h, ih]
      constructor
      · intro hall c
        intro hmem
        rcases List.mem_cons.mp hmem with heq | hmem'
        · injection heq with h1 _
          exact h h1.symm
        · exact hall c hmem'
      · intro hall c hmem
        exact hall c (List.mem_cons_of_mem _ hmem)

theorem lookupChild_some_mem {cs : List (String × TagNode)} {w : String} {c : TagNode}
    (h : lookupChild cs w = some c) : (w, c) ∈ cs := by
  induction cs with
  | nil => cases h
  | cons p rest ih =>
    obtain ⟨k, v⟩ := p
    by_cases hk : k = w
    · subst hk
      simp only [lookupChild, if_pos rfl] at h
      injection h with h1
      subst h1
      exact List.mem_cons_self _ _
    · simp only [lookupChild, if_neg hk] at h
      exact List.mem_cons_of_mem _ (ih h)

theorem mem_map_fst_iff (cs : List (String × TagNode)) (w : String) :
    w ∈ cs.map Prod.fst ↔ ∃ c, (w, c) ∈ cs := by
  rw [List.mem_map]
  constructor
  · rintro ⟨⟨k, c⟩, hmem, rfl⟩
    exact ⟨c, hmem⟩
  · rintro ⟨c, hmem⟩
    exact ⟨(w, c), hmem, rfl⟩

theorem updChild_map_fst (cs : List (String × TagNode)) (w : String) (c' : TagNode) :
    (updChild cs w c').map Prod.fst = cs.map Prod.fst := by
  induction cs with
  | nil => rfl
  | cons p rest ih =>
    obtain ⟨k, v⟩ := p
    by_cases h : k = w <;> simp [updChild, h, ih]

theorem mem_updChild {cs : List (String × TagNode)} {w w' : String} {c' d : TagNode}
    (hnd : (cs.map Prod.fst).Nodup) (h : (w', d) ∈ updChild cs w c') :
    (w' = w ∧ d = c') ∨ (w' ≠ w ∧ (w', d) ∈ cs) := by
  induction cs with
  | nil => cases h
  | cons p rest ih =>
    obtain ⟨k, v⟩ := p
    simp only [List.map_cons, List.nodup_cons] at hnd
    by_cases hk : k = w
    · subst hk
      simp only [updChild, if_pos rfl] at h
      rcases List.mem_cons.mp h with heq | hmem
      · injection heq with h1 h2
        exact Or.inl ⟨h1, h2⟩
      · refine Or.inr ⟨?_, List.mem_cons_of_mem _ hmem⟩
        intro hcontra
        subst hcontra
        exact hnd.1 ((mem_map_fst_iff rest w').mpr ⟨d, hmem⟩)
    · simp only [updChild, if_neg hk] at h
      rcases List.mem_cons.mp h with heq | hmem
      · injection heq with h1 h2
        subst h1
        subst h2
        exact Or.inr ⟨fun hc => hk hc, List.mem_cons_self _ _⟩
      · rcases ih hnd.2 hmem with hl | hr
        · exact Or.inl hl
        · exact Or.inr ⟨hr.1, List.mem_cons_of_mem _ hr.2⟩

theorem updChild_mem_self {cs : List (String × TagNode)} {w : String} {c0 : TagNode}
    (hmem : (w, c0) ∈ cs) (c' : TagNode) : (w, c') ∈ updChild cs w c' := by
  induction cs with
  | nil => cases hmem
  | cons p rest ih =>
    obtain ⟨k, v⟩ := p
    by_cases hk : k = w
    · subst hk
      simp only [updChild, if_pos rfl]
      exact List.mem_cons_self _ _
    · simp only [updChild, if_neg hk]
      rcases List.mem_cons.mp hmem with heq | hmem'
      · injection heq with h1 _
        exact absurd h1.symm hk
      · exact List.mem_cons_of_mem _ (ih hmem')

theorem one_lt_length_iff_two_mem {l : List String} (hnd : l.Nodup) :
    1 < l.length ↔ ∃ a b, a ≠ b ∧ a ∈ l ∧ b ∈ l := by
  constructor
  · intro h
    match l, hnd, h with
    | a :: b :: t, hnd, _ =>
      refine ⟨a, b, ?_, List.mem_cons_self _ _,
        List.mem_cons_of_mem _ (List.mem_cons_self _ _)⟩
      exact (List.pairwise_cons.mp hnd).1 b (List.mem_cons_self _ _)
  · rintro ⟨a, b, hab, ha, hb⟩
    match l, ha, hb with
    | [x], ha, hb =>
      rw [List.mem_singleton] at ha hb
      exact absurd (ha.trans hb.symm) hab
    | x :: y :: t, _, _ => simp

theorem exts_append_iff (T : List (List String × Nat)) (n : List String) (f : Nat)
    (r : List String) (w : String) :
    exts (T ++ [(n, f)]) r w ↔ exts T r w ∨ segPre (r ++ [w]) n := by
  unfold exts
  constructor
  · rintro ⟨q, hq, hpre⟩
    rcases List.mem_append.mp hq with h | h
    · exact Or.inl ⟨q, h, hpre⟩
    · rw [List.mem_singleton] at h
      subst h
      exact Or.inr hpre
  · rintro (⟨q, hq, hpre⟩ | hpre)
    · exact ⟨q, List.mem_append_left _ hq, hpre⟩
    · exact ⟨(n, f), List.mem_append_right _ (List.mem_singleton_self _), hpre⟩

theorem exts_of_subset {T T' : List (List String × Nat)} {r : List String} {w : String}
    (hsub : ∀ q ∈ T, q ∈ T') (h : exts T r w) : exts T' r w := by
  obtain ⟨q, hq, hpre⟩ := h
  exact ⟨q, hsub q hq, hpre⟩

theorem isBranch_of_subset {T T' : List (List String × Nat)} {r : List String}
    (hsub : ∀ q ∈ T, q ∈ T') (h : isBranch T r) : isBranch T' r := by
  obtain ⟨w, w', hne, hw, hw'⟩ := h
  exact ⟨w, w', hne, exts_of_subset hsub hw, exts_of_subset hsub hw'⟩

/-- Pairs whose names do not extend `p` do not change the subtree at
`p`: appending such a pair preserves representation. -/
theorem Reps_mono {sep : Char} {T : List (List String × Nat)} {p : List String}
    {nd : TagNode} {n : List String} {f : Nat} (hrep : Reps sep T p nd) :
    ¬ segPre p n → Reps sep (T ++ [(n, f)]) p nd := by
  induction hrep with
  | mk p fs cs hfs hnd hkeys hch ih =>
    intro hnp
    refine Reps.mk p fs cs ?_ hnd ?_ ?_
    · rw [hfs, List.filter_append]
      have hone : (([(n, f)] : List (List String × Nat)).filter (fun q => q.1 == p)) = [] := by
        have hne : ¬ (n == p) = true := by
          simp only [beq_iff_eq]
          intro heq
          subst heq
          exact hnp (segPre_rfl n)
        simp [List.filter, hne]
      rw [hone, List.append_nil]
    · intro w
      rw [hkeys w]
      constructor
      · rintro ⟨q, hq, hpre⟩
        exact ⟨q, List.mem_append_left _ hq, hpre⟩
      · rintro ⟨q, hq, hpre⟩
        rcases List.mem_append.mp hq with h | h
        · exact ⟨q, h, hpre⟩
        · rw [List.mem_singleton] at h
          subst h
          exact absurd (segPre_of_snoc hpre) hnp
    · intro w c hmem
      exact ih w c hmem (fun hcontra => hnp (segPre_of_snoc hcontra))

theorem mem_visitFuncsRL (g : Nat) :
    ∀ (cs : List (String × TagNode)),
    g ∈ visitFuncsRL cs ↔ ∃ w c, (w, c) ∈ cs ∧ g ∈ visitFuncs c := by
  intro cs
  induction cs with
  | nil => simp [visitFuncsRL]
  | cons p rest ih =>
    obtain ⟨w, c⟩ := p
    simp only [visitFuncsRL, List.mem_append, ih]
    constructor
    · rintro (⟨w', c', hmem, hg⟩ | hg)
      · exact ⟨w', c', List.mem_cons_of_mem _ hmem, hg⟩
      · exact ⟨w, c, List.mem_cons_self _ _, hg⟩
    · rintro ⟨w', c', hmem, hg⟩
      rcases List.mem_cons.mp hmem with heq | hmem'
      · injection heq with h1 h2
        subst h1
        subst h2
        exact Or.inr hg
      · exact Or.inl ⟨w', c', hmem', hg⟩

/-- The funcs of a represented subtree are exactly the handles of the
represented pairs whose name extends the subtree's path. -/
theorem visitFuncs_char {sep : Char} {T : List (List String × Nat)} {p : List String}
    {nd : TagNode} (hrep : Reps sep T p nd) (g : Nat) :
    g ∈ visitFuncs nd ↔ ∃ q ∈ T, segPre p q.1 ∧ q.2 = g := by
  induction hrep with
  | mk p fs cs hfs hnd hkeys hch ih =>
    simp only [visitFuncs, List.mem_append, mem_visitFuncsRL]
    constructor
    · rintro (hg | ⟨w, c, hmem, hg⟩)
      · rw [hfs] at hg
        obtain ⟨q, hq, rfl⟩ := List.mem_map.mp hg
        have hq2 := List.mem_filter.mp hq
        refine ⟨q, hq2.1, ?_, rfl⟩
        have : q.1 = p := by simpa using hq2.2
        rw [this]
        exact segPre_rfl p
      · obtain ⟨q, hq, hpre, rfl⟩ := (ih w c hmem).mp hg
        exact ⟨q, hq, segPre_of_snoc hpre, rfl⟩
    · rintro ⟨q, hq, hpre, rfl⟩
      by_cases heq : p = q.1
      · left
        rw [hfs]
        refine List.mem_map.mpr ⟨q, List.mem_filter.mpr ⟨hq, ?_⟩, rfl⟩
        simp [heq.symm]
      · right
        obtain ⟨w, hw⟩ := segPre_proper_snoc hpre heq
        obtain ⟨c, hc⟩ := (hkeys w).mpr ⟨q, hq, hw⟩
        exact ⟨w, c, hc, (ih w c hc).mpr ⟨q, hq, hw, rfl⟩⟩

/-- A fresh node represents a path that no represented name extends. -/
theorem Reps_fresh {sep : Char} {T : List (List String × Nat)} {p : List String}
    {w : String} (hnone : ¬ ∃ q ∈ T, segPre (p ++ [w]) q.1) :
    Reps sep T (p ++ [w]) (.mk (tagString sep (p ++ [w])) [] []) := by
  refine Reps.mk _ [] [] ?_ (by simp) ?_ ?_
  · symm
    have hfil : T.filter (fun q => q.1 == p ++ [w]) = [] := by
      rw [List.filter_eq_nil]
      intro q hq
      simp only [beq_iff_eq]
      intro heq
      exact hnone ⟨q, hq, by rw [heq]; exact segPre_rfl _⟩
    rw [hfil]
    rfl
  · intro w'
    constructor
    · rintro ⟨c, hc⟩
      cases hc
    · rintro ⟨q, hq, hpre⟩
      exact absurd ⟨q, hq, segPre_of_snoc hpre⟩ hnone
  · intro w' c hmem
    cases hmem

theorem mem_emitTag (tag : String) (f g : Nat) (t : String) :
    (g, t) ∈ emitTag tag f ↔ g = f ∧ t = tag ∧ tag ≠ "" := by
  unfold emitTag
  by_cases h : tag = ""
  · simp [h]
  · simp only [if_neg h, List.mem_singleton, Prod.mk.injEq]
    constructor
    · rintro ⟨rfl, rfl⟩
      exact ⟨rfl, rfl, h⟩
    · rintro ⟨rfl, rfl, _⟩
      exact ⟨rfl, rfl⟩

theorem mem_retroEmits (nd : TagNode) (g : Nat) (t : String) :
    (g, t) ∈ retroEmits nd ↔ nodeTag nd ≠ "" ∧ t = nodeTag nd ∧ g ∈ visitFuncs nd := by
  unfold retroEmits
  by_cases h : nodeTag nd = ""
  · simp [h]
  · simp only [if_neg h, List.mem_map, Prod.mk.injEq]
    constructor
    · rintro ⟨g', hg', rfl, rfl⟩
      exact ⟨h, rfl, hg'⟩
    · rintro ⟨_, rfl, hg⟩
      exact ⟨g, hg, rfl, rfl⟩

/-- Splitting the per-call emission description at the first segment. -/
theorem insSpecAt_cons_iff (sep : Char) (T : List (List String × Nat)) (n : List String)
    (f : Nat) (p : List String) (w : String) (rest' : List String) (g : Nat) (t : String) :
    insSpecAt sep T n f p (w :: rest') g t ↔
      ((t = tagString sep p ∧ t ≠ "" ∧
        ((g = f ∧ isBranch (T ++ [(n, f)]) p) ∨
         (¬ isBranch T p ∧ isBranch (T ++ [(n, f)]) p ∧
          ∃ q ∈ T, segPre p q.1 ∧ q.2 = g))) ∨
       insSpecAt sep T n f (p ++ [w]) rest' g t) := by
  unfold insSpecAt
  constructor
  · rintro ⟨k, hk, ht, hne, hcase⟩
    cases k with
    | zero =>
      left
      simp only [List.take_zero, List.append_nil] at ht hcase
      exact ⟨ht, hne, hcase⟩
    | succ k' =>
      right
      refine ⟨k', ?_, ?_, hne, ?_⟩
      · simpa using hk
      · rw [ht]
        simp [List.append_assoc]
      · have harr : p ++ (w :: rest').take (k' + 1) = (p ++ [w]) ++ rest'.take k' := by
          simp [List.append_assoc]
        rw [harr] at hcase
        exact hcase
  · rintro (⟨ht, hne, hcase⟩ | ⟨k', hk', ht, hne, hcase⟩)
    · exact ⟨0, by simp, by simpa using ht, hne, by simpa using hcase⟩
    · refine ⟨k' + 1, by simpa using hk', ?_, hne, ?_⟩
      · rw [ht]
        simp [List.append_assoc]
      · have harr : p ++ (w :: rest').take (k' + 1) = (p ++ [w]) ++ rest'.take k' := by
          simp [List.append_assoc]
        rw [harr]
        exact hcase

theorem mem_ite_emits {c : Prop} [Decidable c] (l : List (Nat × String)) (e : Nat × String) :
    e ∈ (if c then l else []) ↔ c ∧ e ∈ l := by
  split
  · simp [*]
  · simp [*]

/-- In a represented node, having two or more children is exactly being a
branch point of the represented name multiset. -/
theorem reps_branch_iff {T : List (List String × Nat)} {p : List String}
    {cs : List (String × TagNode)}
    (hnd : (cs.map Prod.fst).Nodup)
    (hkeys : ∀ w, (∃ c, (w, c) ∈ cs) ↔ ∃ q ∈ T, segPre (p ++ [w]) q.1) :
    (1 < cs.length ↔ isBranch T p) := by
  have hlen : cs.length = (cs.map Prod.fst).length := by simp
  rw [hlen, one_lt_length_iff_two_mem hnd]
  unfold isBranch exts
  constructor
  · rintro ⟨a, b, hab, ha, hb⟩
    exact ⟨a, b, hab, (hkeys a).mp ((mem_map_fst_iff cs a).mp ha),
      (hkeys b).mp ((mem_map_fst_iff cs b).mp hb)⟩
  · rintro ⟨a, b, hab, ha, hb⟩
    exact ⟨a, b, hab, (mem_map_fst_iff cs a).mpr ((hkeys a).mpr ha),
      (mem_map_fst_iff cs b).mpr ((hkeys b).mpr hb)⟩

/-- One `add_func((n, f))` call of the `_tagging.py` engine against a
represented subtree: the result represents the subtree with the new pair
included, and the emissions are exactly the ones described by
`insSpecAt`. -/
theorem addFuncA_spec (sep : Char) (T : List (List String × Nat)) (n : List String) (f : Nat) :
    ∀ (rest p : List String) (node : TagNode), Reps sep T p node → n = p ++ rest →
    Reps sep (T ++ [(n, f)]) p (addFuncA sep f rest node).1 ∧
    (∀ g t, (g, t) ∈ (addFuncA sep f rest node).2 ↔ insSpecAt sep T n f p rest g t) := by
  intro rest
  induction rest with
  | nil =>
    intro p node hrep hn
    rw [List.append_nil] at hn
    subst hn
    cases hrep with
    | mk _p fs cs hfs hnd hkeys hch =>
      simp only [addFuncA]
      constructor
      · refine Reps.mk n (fs ++ [f]) cs ?_ hnd ?_ ?_
        · have hsing : ([(n, f)] : List (List String × Nat)).filter
              (fun q => q.1 == n) = [(n, f)] := by simp
          rw [List.filter_append, hsing, List.map_append, ← hfs]
          rfl
        · intro w
          rw [hkeys w]
          constructor
          · rintro ⟨q, hq, hpre⟩
            exact ⟨q, List.mem_append_left _ hq, hpre⟩
          · rintro ⟨q, hq, hpre⟩
            rcases List.mem_append.mp hq with h | h
            · exact ⟨q, h, hpre⟩
            · rw [List.mem_singleton] at h
              subst h
              exact absurd hpre (not_segPre_snoc_self n w)
        · intro w c hmem
          exact Reps_mono (hch w c hmem) (not_segPre_snoc_self n w)
      · intro g t
        simp [insSpecAt]
  | cons w rest' ih =>
    intro p node hrep hn
    cases hrep with
    | mk _p fs cs hfs hnd hkeys hch =>
      have hrep0 : Reps sep T p (.mk (tagString sep p) fs cs) :=
        Reps.mk p fs cs hfs hnd hkeys hch
      have hnep : n ≠ p := by
        rw [hn]
        intro hcontra
        have := congrArg List.length hcontra
        simp at this
      have hsegw : ∀ w'' : String, segPre (p ++ [w'']) n ↔ w'' = w := by
        intro w''
        rw [hn]
        constructor
        · exact segPre_snoc_head
        · intro heq
          rw [heq]
          exact segPre_snoc_of_head p w rest'
      have hextT' : ∀ w'', exts (T ++ [(n, f)]) p w'' ↔ exts T p w'' ∨ w'' = w := by
        intro w''
        rw [exts_append_iff, hsegw]
      have hfilsing : ([(n, f)] : List (List String × Nat)).filter
          (fun q => q.1 == p) = [] := by
        simp [List.filter_cons, hnep]
      have hfs' : fs = ((T ++ [(n, f)]).filter (fun q => q.1 == p)).map (fun q => q.2) := by
        rw [List.filter_append, hfilsing, List.append_nil, hfs]
      have hbT : 1 < cs.length ↔ isBranch T p := reps_branch_iff hnd hkeys
      have hn' : n = (p ++ [w]) ++ rest' := by rw [hn]; simp
      simp only [addFuncA]
      rcases hlook : lookupChild cs w with _ | child
      · have hwnotkey : ¬ ∃ c, (w, c) ∈ cs := by
          rintro ⟨c, hc⟩
          exact (lookupChild_eq_none_iff cs w).mp hlook c hc
        have hnoq : ¬ ∃ q ∈ T, segPre (p ++ [w]) q.1 :=
          fun hq => hwnotkey ((hkeys w).mpr hq)
        have hwext : ¬ exts T p w := hnoq
        have hct : childTag (tagString sep p) sep w = tagString sep (p ++ [w]) :=
          (tagString_snoc sep p w).symm
        obtain ⟨ihrep, ihems⟩ :=
          ih (p ++ [w]) (.mk (tagString sep (p ++ [w])) [] []) (Reps_fresh hnoq) hn'
        have hbT' : isBranch (T ++ [(n, f)]) p ↔ 1 ≤ cs.length := by
          constructor
          · rintro ⟨w1, w2, hne, h1, h2⟩
            have hkey : ∀ w0, exts T p w0 → 1 ≤ cs.length := by
              intro w0 hx
              obtain ⟨c, hc⟩ := (hkeys w0).mpr hx
              have hcs : cs ≠ [] := by
                rintro rfl
                cases hc
              have := List.length_pos.mpr hcs
              omega
            rcases (hextT' w1).mp h1 with hx1 | rfl
            · exact hkey w1 hx1
            · rcases (hextT' w2).mp h2 with hx2 | rfl
              · exact hkey w2 hx2
              · exact absurd rfl hne
          · intro hlen
            obtain ⟨⟨w0, c0⟩, hc0⟩ := List.exists_mem_of_length_pos
              (show 0 < cs.length by omega)
            have hx0 : exts T p w0 := (hkeys w0).mp ⟨c0, hc0⟩
            have hw0 : w0 ≠ w := by
              rintro rfl
              exact hwext hx0
            exact ⟨w0, w, hw0, (hextT' w0).mpr (Or.inl hx0), (hextT' w).mpr (Or.inr rfl)⟩
        rw [hct]
        constructor
        · refine Reps.mk p fs (cs ++ [(w, (addFuncA sep f rest'
              (.mk (tagString sep (p ++ [w])) [] [])).1)]) hfs' ?_ ?_ ?_
          · rw [List.map_append, List.nodup_append]
            refine ⟨hnd, List.nodup_singleton w, ?_⟩
            intro a ha hb
            simp only [List.map_cons, List.map_nil, List.mem_singleton] at hb
            subst hb
            exact hwnotkey ((mem_map_fst_iff cs a).mp ha)
          · intro w''
            constructor
            · rintro ⟨c, hc⟩
              rcases List.mem_append.mp hc with h | h
              · obtain ⟨q, hq, hpre⟩ := (hkeys w'').mp ⟨c, h⟩
                exact ⟨q, List.mem_append_left _ hq, hpre⟩
              · rw [List.mem_singleton] at h
                injection h with h1 _
                subst h1
                exact ⟨(n, f), List.mem_append_right _ (List.mem_singleton_self _),
                  (hsegw w'').mpr rfl⟩
            · rintro ⟨q, hq, hpre⟩
              rcases List.mem_append.mp hq with h | h
              · obtain ⟨c, hc⟩ := (hkeys w'').mpr ⟨q, h, hpre⟩
                exact ⟨c, List.mem_append_left _ hc⟩
              · rw [List.mem_singleton] at h
                subst h
                have hww : w'' = w := (hsegw w'').mp hpre
                subst hww
                exact ⟨_, List.mem_append_right _ (List.mem_singleton_self _)⟩
          · intro w'' c hmem
            rcases List.mem_append.mp hmem with h | h
            · refine Reps_mono (hch w'' c h) ?_
              intro hcontra
              have hww : w'' = w := (hsegw w'').mp hcontra
              subst hww
              exact hwnotkey ⟨c, h⟩
            · rw [List.mem_singleton] at h
              injection h with h1 h2
              subst h1
              subst h2
              exact ihrep
        · intro g t
          rw [insSpecAt_cons_iff]
          simp only [List.mem_append, mem_ite_emits, mem_emitTag, mem_retroEmits,
            nodeTag, ihems, visitFuncs_char hrep0]
          constructor
          · rintro ((⟨hlen, rfl, rfl, hne⟩ | ⟨hlen1, hsub⟩) | hmem)
            · exact Or.inl ⟨rfl, hne, Or.inl ⟨rfl, hbT'.mpr (by omega)⟩⟩
            · rcases hsub with ⟨rfl, rfl, hne⟩ | ⟨hne, rfl, hg⟩
              · exact Or.inl ⟨rfl, hne, Or.inl ⟨rfl, hbT'.mpr (by omega)⟩⟩
              · refine Or.inl ⟨rfl, hne, Or.inr ⟨?_, hbT'.mpr (by omega), hg⟩⟩
                intro hb
                have := hbT.mpr hb
                omega
            · exact Or.inr hmem
          · rintro (⟨rfl, hne, hcase⟩ | hmem)
            · rcases hcase with ⟨rfl, hb⟩ | ⟨hnb, hb, hq⟩
              · have hlen := hbT'.mp hb
                by_cases hl : 1 < cs.length
                · exact Or.inl (Or.inl ⟨hl, rfl, rfl, hne⟩)
                · exact Or.inl (Or.inr ⟨by omega, Or.inl ⟨rfl, rfl, hne⟩⟩)
              · have hlen := hbT'.mp hb
                have hnl : ¬ 1 < cs.length := fun hl => hnb (hbT.mp hl)
                exact Or.inl (Or.inr ⟨by omega, Or.inr ⟨hne, rfl, hq⟩⟩)
            · exact Or.inr hmem
      · have hmemc : (w, child) ∈ cs := lookupChild_some_mem hlook
        have hchild := hch w child hmemc
        obtain ⟨ihrep, ihems⟩ := ih (p ++ [w]) child hchild hn'
        have hwext : exts T p w := (hkeys w).mp ⟨child, hmemc⟩
        have hbeq : isBranch (T ++ [(n, f)]) p ↔ isBranch T p := by
          constructor
          · rintro ⟨w1, w2, hne, h1, h2⟩
            have h1' : exts T p w1 := by
              rcases (hextT' w1).mp h1 with hx | rfl
              · exact hx
              · exact hwext
            have h2' : exts T p w2 := by
              rcases (hextT' w2).mp h2 with hx | rfl
              · exact hx
              · exact hwext
            exact ⟨w1, w2, hne, h1', h2'⟩
          · exact isBranch_of_subset (fun q hq => List.mem_append_left _ hq)
        constructor
        · refine Reps.mk p fs (updChild cs w (addFuncA sep f rest' child).1) hfs' ?_ ?_ ?_
          · rw [updChild_map_fst]
            exact hnd
          · intro w''
            have hmm : (∃ c, (w'', c) ∈ updChild cs w (addFuncA sep f rest' child).1) ↔
                ∃ c, (w'', c) ∈ cs := by
              rw [← mem_map_fst_iff, ← mem_map_fst_iff, updChild_map_fst]
            rw [hmm, hkeys w'']
            constructor
            · rintro ⟨q, hq, hpre⟩
              exact ⟨q, List.mem_append_left _ hq, hpre⟩
            · rintro ⟨q, hq, hpre⟩
              rcases List.mem_append.mp hq with h | h
              · exact ⟨q, h, hpre⟩
              · rw [List.mem_singleton] at h
                subst h
                have hww : w'' = w := (hsegw w'').mp hpre
                rw [hww]
                exact hwext
          · intro w'' c hmem
            rcases mem_updChild hnd hmem with ⟨rfl, rfl⟩ | ⟨hne, hmem'⟩
            · exact ihrep
            · refine Reps_mono (hch w'' c hmem') ?_
              intro hcontra
              exact hne ((hsegw w'').mp hcontra)
        · intro g t
          rw [insSpecAt_cons_iff]
          simp only [List.mem_append, mem_ite_emits, mem_emitTag, ihems]
          constructor
          · rintro (⟨hlen, rfl, rfl, hne⟩ | hmem)
            · exact Or.inl ⟨rfl, hne, Or.inl ⟨rfl, hbeq.mpr (hbT.mp hlen)⟩⟩
            · exact Or.inr hmem
          · rintro (⟨rfl, hne, hcase⟩ | hmem)
            · rcases hcase with ⟨rfl, hb⟩ | ⟨hnb, hb, _⟩
              · exact Or.inl ⟨hbT.mpr (hbeq.mp hb), rfl, rfl, hne⟩
              · exact absurd (hbeq.mp hb) hnb
            · exact Or.inr hmem

/-- The empty engine represents the empty pair list. -/
theorem Reps_empty (sep : Char) : Reps sep [] [] emptyNode := by
  show Reps sep [] [] (.mk (tagString sep []) [] [])
  refine Reps.mk [] [] [] rfl (by simp) ?_ ?_
  · intro w
    constructor
    · rintro ⟨c, hc⟩
      cases hc
    · rintro ⟨q, hq, _⟩
      cases hq
  · intro w c h
    cases h

/-- Running the engine over pre-split pairs from a represented root:
representation is preserved and the emissions are exactly `runEmitSpec`. -/
theorem runSegs_spec (sep : Char) :
    ∀ (S done : List (List String × Nat)) (node : TagNode),
    Reps sep done [] node →
    Reps sep (done ++ S) [] (runSegs sep S node).1 ∧
    (∀ g t, ((g, t) ∈ (runSegs sep S node).2 ↔ runEmitSpec sep done S g t)) := by
  intro S
  induction S with
  | nil =>
    intro done node hrep
    constructor
    · simpa using hrep
    · intro g t
      simp [runSegs, runEmitSpec]
  | cons q rest ih =>
    intro done node hrep
    obtain ⟨n, f⟩ := q
    obtain ⟨hrep1, hems1⟩ := addFuncA_spec sep done n f n [] node hrep (by simp)
    obtain ⟨hrep2, hems2⟩ := ih (done ++ [(n, f)]) (addFuncA sep f n node).1 hrep1
    constructor
    · have hassoc : done ++ (n, f) :: rest = (done ++ [(n, f)]) ++ rest := by simp
      rw [hassoc]
      exact hrep2
    · intro g t
      simp only [runSegs, List.mem_append, runEmitSpec]
      rw [hems1 g t, hems2 g t]
      rfl

theorem runA_eq_runSegs (sep : Char) :
    ∀ (pairs : List (String × Nat)) (node : TagNode),
    runA sep pairs node =
      runSegs sep (pairs.map (fun p => (splitCh sep p.1.data, p.2))) node := by
  intro pairs
  induction pairs with
  | nil => intro node; rfl
  | cons p rest ih =>
    intro node
    obtain ⟨nm, f⟩ := p
    simp [runA, runSegs, addNameA, ih]

theorem segPre_proper_length {r n : List String} (h : segPre r n) (hne : r ≠ n) :
    r.length < n.length := by
  obtain ⟨c, rfl⟩ := h
  cases c with
  | nil => exact absurd (by simp) hne
  | cons a l =>
    rw [List.length_append]
    simp

/-- `insSpec` phrased over the prefix itself instead of its depth. -/
theorem insSpec_iff (sep : Char) (T : List (List String × Nat)) (n : List String)
    (f g : Nat) (t : String) :
    insSpec sep T n f g t ↔
      ∃ r, segPre r n ∧ r ≠ n ∧ t = tagString sep r ∧ t ≠ "" ∧
        ((g = f ∧ isBranch (T ++ [(n, f)]) r) ∨
         (¬ isBranch T r ∧ isBranch (T ++ [(n, f)]) r ∧
          ∃ q ∈ T, segPre r q.1 ∧ q.2 = g)) := by
  unfold insSpec insSpecAt
  constructor
  · rintro ⟨k, hk, ht, hne, hcase⟩
    refine ⟨n.take k, ⟨n.drop k, List.take_append_drop k n⟩, ?_, ?_, hne, ?_⟩
    · intro heq
      have hlen := congrArg List.length heq
      rw [List.length_take] at hlen
      omega
    · simpa using ht
    · simpa using hcase
  · rintro ⟨r, hpre, hne', ht, hne, hcase⟩
    have htake : n.take r.length = r := segPre_take hpre
    refine ⟨r.length, segPre_proper_length hpre hne', ?_, hne, ?_⟩
    · rw [ht]
      simp [htake]
    · simpa [htake] using hcase

/-- A first-time branch at `r` caused by appending `(n, f)` forces `r` to
be a proper prefix of `n`. -/
theorem transition_prefix {done : List (List String × Nat)} {n : List String} {f : Nat}
    {r : List String} (hnb : ¬ isBranch done r) (hb : isBranch (done ++ [(n, f)]) r) :
    segPre r n ∧ r ≠ n := by
  obtain ⟨w1, w2, hne, h1, h2⟩ := hb
  rw [exts_append_iff] at h1 h2
  rcases h1 with h1 | h1
  · rcases h2 with h2 | h2
    · exact absurd ⟨w1, w2, hne, h1, h2⟩ hnb
    · refine ⟨segPre_of_snoc h2, ?_⟩
      intro heq
      rw [heq] at h2
      exact not_segPre_snoc_self n w2 h2
  · refine ⟨segPre_of_snoc h1, ?_⟩
    intro heq
    rw [heq] at h1
    exact not_segPre_snoc_self n w1 h1

/-- Cumulative emission characterization: while processing `S` on top of
the trie of `done` (names pairwise prefix-free across `done ++ S`),
handle `g` receives tag `t` exactly when `t` is the tag of a path `r`
that is a branch point of the final trie and a proper prefix of `g`'s
name — where for names of `done` the branch must moreover be created
during `S` (otherwise the tag was already emitted earlier). -/
theorem runEmitSpec_char (sep : Char) :
    ∀ (S done : List (List String × Nat)),
    List.Pairwise (fun a b => ¬ segPre a.1 b.1 ∧ ¬ segPre b.1 a.1) (done ++ S) →
    ∀ g t, (runEmitSpec sep done S g t ↔
      ∃ r, t = tagString sep r ∧ t ≠ "" ∧ isBranch (done ++ S) r ∧
        ((∃ q ∈ S, q.2 = g ∧ segPre r q.1 ∧ r ≠ q.1) ∨
         (¬ isBranch done r ∧ ∃ q ∈ done, q.2 = g ∧ segPre r q.1 ∧ r ≠ q.1))) := by
  intro S
  induction S with
  | nil =>
    intro done hpw g t
    simp only [runEmitSpec, List.append_nil]
    constructor
    · intro h
      exact h.elim
    · rintro ⟨r, _, _, hb, hcase⟩
      rcases hcase with ⟨q, hq, _⟩ | ⟨hnb, _⟩
      · cases hq
      · exact hnb hb
  | cons q0 rest ih =>
    intro done hpw g t
    obtain ⟨n, f⟩ := q0
    have hassoc : done ++ (n, f) :: rest = (done ++ [(n, f)]) ++ rest := by simp
    have hpw' : List.Pairwise (fun a b => ¬ segPre a.1 b.1 ∧ ¬ segPre b.1 a.1)
        ((done ++ [(n, f)]) ++ rest) := by
      rw [← hassoc]
      exact hpw
    have hcross : ∀ q ∈ done, ¬ segPre q.1 n := by
      intro q hq
      have h2 := (List.pairwise_append.mp hpw).2.2
      exact (h2 q hq (n, f) (List.mem_cons_self _ _)).1
    have hfull : ∀ r : List String,
        isBranch ((done ++ [(n, f)]) ++ rest) r ↔ isBranch (done ++ (n, f) :: rest) r := by
      intro r
      rw [← hassoc]
    have hmono1 : ∀ r : List String, isBranch done r → isBranch (done ++ [(n, f)]) r :=
      fun r => isBranch_of_subset (fun q hq => List.mem_append_left _ hq)
    have hmono2 : ∀ r : List String,
        isBranch (done ++ [(n, f)]) r → isBranch (done ++ (n, f) :: rest) r := by
      intro r
      refine isBranch_of_subset ?_
      intro q hq
      rw [hassoc]
      exact List.mem_append_left _ hq
    simp only [runEmitSpec]
    rw [insSpec_iff, ih (done ++ [(n, f)]) hpw' g t]
    constructor
    · rintro (⟨r, hpre, hrne, ht, hne, hcase⟩ | ⟨r, ht, hne, hb, hcase⟩)
      · rcases hcase with ⟨hgf, hb⟩ | ⟨hnb, hb, q, hq, hqpre, hqg⟩
        · exact ⟨r, ht, hne, hmono2 r hb,
            Or.inl ⟨(n, f), List.mem_cons_self _ _, hgf.symm, hpre, hrne⟩⟩
        · refine ⟨r, ht, hne, hmono2 r hb, Or.inr ⟨hnb, q, hq, hqg, hqpre, ?_⟩⟩
          intro heq
          rw [heq] at hpre
          exact hcross q hq hpre
      · rcases hcase with ⟨q, hq, hqg, hqpre, hqne⟩ | ⟨hnb', q, hq, hqg, hqpre, hqne⟩
        · exact ⟨r, ht, hne, (hfull r).mp hb,
            Or.inl ⟨q, List.mem_cons_of_mem _ hq, hqg, hqpre, hqne⟩⟩
        · have hnb : ¬ isBranch done r := fun hbd => hnb' (hmono1 r hbd)
          rcases List.mem_append.mp hq with hqd | hqn
          · exact ⟨r, ht, hne, (hfull r).mp hb, Or.inr ⟨hnb, q, hqd, hqg, hqpre, hqne⟩⟩
          · rw [List.mem_singleton] at hqn
            subst hqn
            exact ⟨r, ht, hne, (hfull r).mp hb,
              Or.inl ⟨(n, f), List.mem_cons_self _ _, hqg, hqpre, hqne⟩⟩
    · rintro ⟨r, ht, hne, hb, hcase⟩
      rcases hcase with ⟨q, hq, hqg, hqpre, hqne⟩ | ⟨hnb, q, hq, hqg, hqpre, hqne⟩
      · rcases List.mem_cons.mp hq with rfl | hqrest
        · by_cases hb' : isBranch (done ++ [(n, f)]) r
          · exact Or.inl ⟨r, hqpre, hqne, ht, hne, Or.inl ⟨hqg.symm ▸ rfl, hb'⟩⟩
          · refine Or.inr ⟨r, ht, hne, (hfull r).mpr hb, Or.inr ⟨hb', (n, f),
              List.mem_append_right _ (List.mem_singleton_self _), hqg, hqpre, hqne⟩⟩
        · exact Or.inr ⟨r, ht, hne, (hfull r).mpr hb,
            Or.inl ⟨q, hqrest, hqg, hqpre, hqne⟩⟩
      · by_cases hb' : isBranch (done ++ [(n, f)]) r
        · obtain ⟨hpn, hrn⟩ := transition_prefix hnb hb'
          exact Or.inl ⟨r, hpn, hrn, ht, hne, Or.inr ⟨hnb, hb', q, hq, hqpre, hqg⟩⟩
        · exact Or.inr ⟨r, ht, hne, (hfull r).mpr hb,
            Or.inr ⟨hb', q, List.mem_append_left _ hq, hqg, hqpre, hqne⟩⟩

theorem mem_tagsA_iff (sep : Char) (pairs : List (String × Nat)) (g : Nat) (t : String) :
    t ∈ tagsA sep pairs g ↔ (g, t) ∈ (runA sep pairs emptyNode).2 := by
  unfold tagsA
  constructor
  · intro h
    obtain ⟨e, he, het⟩ := List.mem_map.mp h
    obtain ⟨hmem, heq⟩ := List.mem_filter.mp he
    rcases e with ⟨g', t'⟩
    have hg : g' = g := by simpa using heq
    subst hg
    rw [← het]
    exact hmem
  · intro h
    exact List.mem_map.mpr ⟨(g, t), List.mem_filter.mpr ⟨h, by simp⟩, rfl⟩

theorem hasTagSpec_iff_mid (sep : Char) (S : List (List String × Nat)) (g : Nat)
    (t : String) :
    hasTagSpec sep S g t ↔
      ∃ r, t = tagString sep r ∧ t ≠ "" ∧ isBranch ([] ++ S) r ∧
        ((∃ q ∈ S, q.2 = g ∧ segPre r q.1 ∧ r ≠ q.1) ∨
         (¬ isBranch [] r ∧
          ∃ q ∈ ([] : List (List String × Nat)), q.2 = g ∧ segPre r q.1 ∧ r ≠ q.1)) := by
  unfold hasTagSpec
  simp only [List.nil_append]
  constructor
  · rintro ⟨q, hq, hqg, r, hpre, hne', ht, hne, hb⟩
    exact ⟨r, ht, hne, hb, Or.inl ⟨q, hq, hqg, hpre, hne'⟩⟩
  · rintro ⟨r, ht, hne, hb, hcase⟩
    rcases hcase with ⟨q, hq, hqg, hpre, hne'⟩ | ⟨_, q, hq, _⟩
    · exact ⟨q, hq, hqg, r, hpre, hne', ht, hne, hb⟩
    · cases hq

theorem hasTagSpec_perm {sep : Char} {S1 S2 : List (List String × Nat)} {g : Nat}
    {t : String} (hp : S1.Perm S2) : hasTagSpec sep S1 g t ↔ hasTagSpec sep S2 g t := by
  unfold hasTagSpec
  constructor
  · rintro ⟨q, hq, hqg, r, hpre, hne', ht, hne, hb⟩
    exact ⟨q, hp.mem_iff.mp hq, hqg, r, hpre, hne', ht, hne,
      isBranch_of_subset (fun q' hq' => hp.mem_iff.mp hq') hb⟩
  · rintro ⟨q, hq, hqg, r, hpre, hne', ht, hne, hb⟩
    exact ⟨q, hp.mem_iff.mpr hq, hqg, r, hpre, hne', ht, hne,
      isBranch_of_subset (fun q' hq' => hp.mem_iff.mpr hq') hb⟩

/-- For prefix-free name lists, the final tag set of every handle is the
order-free `hasTagSpec` of the name multiset. -/
theorem tagsA_char (sep : Char) (pairs : List (String × Nat))
    (hpf : List.Pairwise (fun a b =>
      ¬ segPre (splitCh sep a.1.data) (splitCh sep b.1.data) ∧
      ¬ segPre (splitCh sep b.1.data) (splitCh sep a.1.data)) pairs)
    (g : Nat) (t : String) :
    t ∈ tagsA sep pairs g ↔
      hasTagSpec sep (pairs.map (fun p => (splitCh sep p.1.data, p.2))) g t := by
  have hpfS : List.Pairwise (fun a b => ¬ segPre a.1 b.1 ∧ ¬ segPre b.1 a.1)
      (([] : List (List String × Nat)) ++
        pairs.map (fun p => (splitCh sep p.1.data, p.2))) := by
    rw [List.nil_append, List.pairwise_map]
    exact hpf
  rw [mem_tagsA_iff, runA_eq_runSegs,
    (runSegs_spec sep (pairs.map (fun p => (splitCh sep p.1.data, p.2))) []
      emptyNode (Reps_empty sep)).2 g t,
    runEmitSpec_char sep (pairs.map (fun p => (splitCh sep p.1.data, p.2))) [] hpfS g t,
    ← hasTagSpec_iff_mid]

/-- C3 amended: for name lists in which no name is a segment-wise prefix
of another (names in particular distinct), the final tag sets are a
function of the set of `(name, handle)` pairs only — any two permutations
fed to fresh `_tagging.py` engines give every handle the same tags.  (The
restriction is necessary: `autoTag_order_dependent_cex` shows the claim
fails when one name is a proper prefix of another.) -/
theorem autoTag_order_insensitive_of_prefix_free (sep : Char)
    (pairs1 pairs2 : List (String × Nat))
    (hperm : List.Perm pairs1 pairs2)
    (hpf : List.Pairwise (fun a b =>
      ¬ segPre (splitCh sep a.1.data) (splitCh sep b.1.data) ∧
      ¬ segPre (splitCh sep b.1.data) (splitCh sep a.1.data)) pairs1)
    (g : Nat) (t : String) :
    (t ∈ tagsA sep pairs1 g ↔ t ∈ tagsA sep pairs2 g) := by
  have hpf2 := (hperm.pairwise_iff (fun h => ⟨h.2, h.1⟩)).mp hpf
  rw [tagsA_char sep pairs1 hpf g t, tagsA_char sep pairs2 hpf2 g t]
  exact hasTagSpec_perm (hperm.map (fun p => (splitCh sep p.1.data, p.2)))

/-- Witness for the amended C3 on the prefix-free names `a-x`, `a-y`,
`b` in two orders. -/
theorem autoTag_order_insensitive_witness :
    List.Perm [("a-x", 1), ("a-y", 2), ("b", 3)] [("b", 3), ("a-y", 2), ("a-x", 1)] ∧
    List.Pairwise (fun a b =>
      ¬ segPre (splitCh '-' a.1.data) (splitCh '-' b.1.data) ∧
      ¬ segPre (splitCh '-' b.1.data) (splitCh '-' a.1.data))
      [("a-x", 1), ("a-y", 2), ("b", 3)] ∧
    ("a" ∈ tagsA '-' [("a-x", 1), ("a-y", 2), ("b", 3)] 1 ↔
     "a" ∈ tagsA '-' [("b", 3), ("a-y", 2), ("a-x", 1)] 1) :=
  ⟨by decide, by decide,
    autoTag_order_insensitive_of_prefix_free '-' [("a-x", 1), ("a-y", 2), ("b", 3)]
      [("b", 3), ("a-y", 2), ("a-x", 1)] (by decide) (by decide) 1 "a"⟩

end Noxopt
